import Mathlib

/-! # Folder list model: `DirListWorker` and `DirModel` of `src/dirmodel.cpp`

A shallow embedding of the directory scan worker and of the sorted, filtered
list model that consumes its batches, followed by the properties of the
specification that were checked against it.

The Qt library calls the source relies on (`QString::localeAwareCompare`,
wildcard matching through `QRegularExpression`) are parameters, collected in
`Qt`. What `QDirIterator` yields for a directory is an input list.
-/

namespace FolderListModel

/-! ## Data model -/

/-- The part of a `QFileInfo` that `dirmodel.cpp` reads when it scans, filters
and orders entries, together with the path and size that tell two file system
objects apart. -/
structure QFileInfo where
  fileName : String
  isDir : Bool
  filePath : String
  size : Nat
  deriving DecidableEq, Repr

/-- The enum `DirModel::FilterMode`. -/
inductive FilterMode where
  | Inclusive
  | Exclusive
  deriving DecidableEq, Repr

/-- The library functions of Qt that the source calls.
`localeAwareCompare a b` is `QString::localeAwareCompare(a, b)`;
`hasMatch nameFilter fileName` is the result of matching `fileName` against
the case-insensitive regular expression built from the wildcard `nameFilter`. -/
structure Qt where
  localeAwareCompare : String → String → Int
  hasMatch : String → String → Bool

/-- The signals of `DirListWorker`. -/
inductive WorkerSignal where
  | itemsAdded (files : List QFileInfo)
  | workerFinished
  deriving DecidableEq, Repr

/-- The notifications `DirModel` sends to its observers. -/
inductive Signal where
  | awaitingResultsChanged
  | modelReset
  | rowsInserted (first last : Nat)
  | pathChanged
  | showDirectoriesChanged
  | showHiddenFilesChanged
  | filterModeChanged
  | nameFiltersChanged
  deriving DecidableEq, Repr

/-- The members of `DirListWorker`. -/
structure DirListWorker where
  mPathName : String
  mShowHidden : Bool
  deriving DecidableEq, Repr

/-- The members of `DirModel`, the log of the requests handed to the worker
thread (`ioWorkerThread()->addRequest`) and the log of the emitted signals. -/
structure DirModel where
  mDirectoryContents : List QFileInfo
  mCurrentDir : String
  mFilterMode : FilterMode
  mShowDirectories : Bool
  mAwaitingResults : Bool
  mShowHiddenFiles : Bool
  mNameFilters : List String
  requests : List DirListWorker
  emitted : List Signal
  deriving DecidableEq, Repr

/-! ## `DirListWorker::run` -/

/-- The test `fileName[0] == QLatin1Char('.')`. -/
def startsWithDot (fileName : String) : Bool :=
  fileName.data.head? == some '.'

/-- The `while (it.hasNext())` loop of `DirListWorker::run` followed by the two
final emissions. The first list is what the iterator has yet to yield,
`directoryContents` is the local vector of the same name. -/
def DirListWorker.runLoop (mShowHidden : Bool) :
    List QFileInfo → List QFileInfo → List WorkerSignal
  | [], directoryContents =>
      [WorkerSignal.itemsAdded directoryContents, WorkerSignal.workerFinished]
  | fi :: it, directoryContents =>
      if startsWithDot fi.fileName && !mShowHidden then
        DirListWorker.runLoop mShowHidden it directoryContents
      else
        if (directoryContents ++ [fi]).length ≥ 50 then
          WorkerSignal.itemsAdded (directoryContents ++ [fi]) ::
            DirListWorker.runLoop mShowHidden it []
        else
          DirListWorker.runLoop mShowHidden it (directoryContents ++ [fi])

/-- The signals `DirListWorker::run` emits, in order, when the directory
iterator yields `it`. -/
def DirListWorker.run (w : DirListWorker) (it : List QFileInfo) : List WorkerSignal :=
  DirListWorker.runLoop w.mShowHidden it []

/-! ## `DirModel` -/

/-- The constructor `DirModel::DirModel`. -/
def DirModel.construct : DirModel where
  mDirectoryContents := []
  mCurrentDir := ""
  mFilterMode := FilterMode.Exclusive
  mShowDirectories := true
  mAwaitingResults := false
  mShowHiddenFiles := false
  mNameFilters := ["*"]
  requests := []
  emitted := []

/-- The method `DirModel::setPath`. -/
def DirModel.setPath (m : DirModel) (pathName : String) : DirModel :=
  if pathName.isEmpty then m
  else if m.mAwaitingResults then m
  else
    { m with
      mAwaitingResults := true
      mDirectoryContents := []
      requests := m.requests ++ [{ mPathName := pathName, mShowHidden := m.mShowHiddenFiles }]
      mCurrentDir := pathName
      emitted := m.emitted ++
        [Signal.awaitingResultsChanged, Signal.modelReset, Signal.pathChanged] }

/-- The static function `fileCompare`. -/
def fileCompare (qt : Qt) (a b : QFileInfo) : Bool :=
  if a.isDir && !b.isDir then true
  else if b.isDir && !a.isDir then false
  else decide (qt.localeAwareCompare a.fileName b.fileName < 0)

/-- The slot `DirModel::onResultsFetched`. -/
def DirModel.onResultsFetched (m : DirModel) : DirModel :=
  if m.mAwaitingResults then
    { m with
      mAwaitingResults := false
      emitted := m.emitted ++ [Signal.awaitingResultsChanged] }
  else m

/-- The loop of `std::lower_bound`: `first` and `len` delimit the range still
searched, `comp element value` is the comparison. The leading argument bounds
the number of iterations; `len` at least halves each time, so `len` itself is
enough. The element at `first + len / 2` always lies inside the list when the
range does; the `none` branch is there for totality only. -/
def lowerBoundLoop {α : Type} (comp : α → α → Bool) (xs : List α) (value : α) :
    Nat → Nat → Nat → Nat
  | 0, first, _ => first
  | fuel + 1, first, len =>
      if len > 0 then
        match xs[first + len / 2]? with
        | some x =>
            if comp x value then
              lowerBoundLoop comp xs value fuel (first + len / 2 + 1) (len - len / 2 - 1)
            else
              lowerBoundLoop comp xs value fuel first (len / 2)
        | none => first
      else first

/-- The call `std::lower_bound(xs.begin(), xs.end(), value, comp)`, as the
index of the returned iterator. -/
def lower_bound {α : Type} (comp : α → α → Bool) (xs : List α) (value : α) : Nat :=
  lowerBoundLoop comp xs value xs.length 0 xs.length

/-- The inner `foreach` over `mNameFilters` in `DirModel::onItemsAdded`, with
`doAdd` as the accumulator; a `break` ends the recursion. -/
def filterLoop (qt : Qt) (mFilterMode : FilterMode) (fileName : String) :
    List String → Bool → Bool
  | [], doAdd => doAdd
  | nameFilter :: rest, doAdd =>
      if mFilterMode = FilterMode.Inclusive && qt.hasMatch nameFilter fileName then true
      else if mFilterMode = FilterMode.Exclusive && !qt.hasMatch nameFilter fileName then false
      else filterLoop qt mFilterMode fileName rest doAdd

/-- The value of `doAdd` after the filter loop of `DirModel::onItemsAdded`. -/
def doAdd (qt : Qt) (mFilterMode : FilterMode) (mNameFilters : List String)
    (fileName : String) : Bool :=
  filterLoop qt mFilterMode fileName mNameFilters (decide (mFilterMode = FilterMode.Exclusive))

/-- The body of the outer `foreach` of `DirModel::onItemsAdded` for one `fi`. -/
def DirModel.addItem (qt : Qt) (m : DirModel) (fi : QFileInfo) : DirModel :=
  if !m.mShowDirectories && fi.isDir then m
  else if !doAdd qt m.mFilterMode m.mNameFilters fi.fileName then m
  else
    let idx := lower_bound (fileCompare qt) m.mDirectoryContents fi
    if idx = m.mDirectoryContents.length then
      { m with
        mDirectoryContents := m.mDirectoryContents ++ [fi]
        emitted := m.emitted ++
          [Signal.rowsInserted m.mDirectoryContents.length m.mDirectoryContents.length] }
    else
      { m with
        mDirectoryContents := m.mDirectoryContents.take idx ++ fi :: m.mDirectoryContents.drop idx
        emitted := m.emitted ++ [Signal.rowsInserted idx idx] }

/-- The slot `DirModel::onItemsAdded`. -/
def DirModel.onItemsAdded (qt : Qt) (m : DirModel) (newFiles : List QFileInfo) : DirModel :=
  newFiles.foldl (DirModel.addItem qt) m

/-- Modelled from the spec: `DirModel::refresh` is declared in `dirmodel.h`,
which is not among the sources; section 4.6 describes the rescan the mutators
trigger as re-invoking the path change against the same directory. -/
def DirModel.refresh (m : DirModel) : DirModel :=
  m.setPath m.mCurrentDir

/-- The method `DirModel::setShowDirectories`. -/
def DirModel.setShowDirectories (m : DirModel) (showDirectories : Bool) : DirModel :=
  let m1 := { m with mShowDirectories := showDirectories }
  let m2 := m1.refresh
  { m2 with emitted := m2.emitted ++ [Signal.showDirectoriesChanged] }

/-- The method `DirModel::setShowHiddenFiles`. -/
def DirModel.setShowHiddenFiles (m : DirModel) (showHiddenFiles : Bool) : DirModel :=
  if showHiddenFiles != m.mShowHiddenFiles then
    let m1 := { m with mShowHiddenFiles := showHiddenFiles }
    let m2 := m1.refresh
    { m2 with emitted := m2.emitted ++ [Signal.showHiddenFilesChanged] }
  else m

/-- The method `DirModel::setFilterMode`. -/
def DirModel.setFilterMode (m : DirModel) (mode : FilterMode) : DirModel :=
  if m.mFilterMode = mode then m
  else
    let m1 := { m with mFilterMode := mode }
    let m2 := m1.refresh
    { m2 with emitted := m2.emitted ++ [Signal.filterModeChanged] }

/-- The method `DirModel::setNameFilters`. -/
def DirModel.setNameFilters (m : DirModel) (nameFilters : List String) : DirModel :=
  let m1 := { m with mNameFilters := nameFilters }
  let m2 := m1.refresh
  { m2 with emitted := m2.emitted ++ [Signal.nameFiltersChanged] }

/-- The queued connections made in `setPath`: `itemsAdded` is delivered to
`onItemsAdded`, `workerFinished` to `onResultsFetched`. -/
def DirModel.deliver (qt : Qt) (m : DirModel) : WorkerSignal → DirModel
  | WorkerSignal.itemsAdded files => m.onItemsAdded qt files
  | WorkerSignal.workerFinished => m.onResultsFetched

/-! ## Sample instances of the library parameters -/

/-- Three-way lexicographic comparison of two character sequences by code
point. -/
def compareChars : List Char → List Char → Int
  | [], [] => 0
  | [], _ :: _ => -1
  | _ :: _, [] => 1
  | a :: as, b :: bs =>
      if a < b then -1 else if b < a then 1 else compareChars as bs

/-- A comparison function to run the model on concrete names: the code point
order of the names. -/
def codePointCompare (a b : String) : Int :=
  compareChars a.data b.data

/-- A matcher to run the model on concrete names: the wildcard `*` matches
every name, any other pattern matches only the name equal to it. -/
def starOrEqual (nameFilter fileName : String) : Bool :=
  nameFilter == "*" || nameFilter == fileName

/-- The sample library instance used for concrete scenarios. -/
def sampleQt : Qt where
  localeAwareCompare := codePointCompare
  hasMatch := starOrEqual

/-- A plain file named `name` in directory `/d`. -/
def file (name : String) : QFileInfo :=
  { fileName := name, isDir := false, filePath := "/d/" ++ name, size := 1 }

/-- The plain file `f001`, `f002`, ... of scenario 2, for `i` below 1000. -/
def numbered (i : Nat) : QFileInfo :=
  file (String.mk
    ['f', Char.ofNat (48 + i / 100), Char.ofNat (48 + i / 10 % 10), Char.ofNat (48 + i % 10)])

/-- A second plain file named `a.txt`, in directory `/e`; it ties with
`file "a.txt"` under the ordering rule. -/
def otherFile : QFileInfo :=
  { fileName := "a.txt", isDir := false, filePath := "/e/a.txt", size := 2 }

/-- A directory named `name` in directory `/d`. -/
def dir (name : String) : QFileInfo :=
  { fileName := name, isDir := true, filePath := "/d/" ++ name, size := 0 }

/-- The idle view at `/a` holding `a.txt`: the state after `setPath("/a")`, the
ingestion of the batch `a.txt` and the completion of the scan. -/
def idleView : DirModel :=
  ((DirModel.construct.setPath "/a").onItemsAdded sampleQt [file "a.txt"]).onResultsFetched

/-! ## Ordering -/

/-- A strict weak order on a Boolean comparison: irreflexive, transitive, and
with a transitive incomparability. It is what `std::lower_bound` asks of its
comparison. -/
structure StrictWeakOrder {α : Type} (lt : α → α → Bool) : Prop where
  irrefl : ∀ a, lt a a = false
  trans : ∀ a b c, lt a b = true → lt b c = true → lt a c = true
  incomp_trans : ∀ a b c, lt a b = false → lt b a = false → lt b c = false →
    lt c b = false → lt a c = false ∧ lt c a = false

/-- The name comparison used by `fileCompare`:
`QString::localeAwareCompare(a, b) < 0`. -/
def nameLess (qt : Qt) (a b : String) : Bool :=
  decide (qt.localeAwareCompare a b < 0)

/-- A list is sorted under the ordering rule when no later element compares
less than an earlier one. -/
def Sorted (qt : Qt) (xs : List QFileInfo) : Prop :=
  xs.Pairwise (fun a b => fileCompare qt b a = false)

/-- The comparison against `v` is true on an initial stretch of `xs` and false
after it: the precondition of `std::lower_bound`. -/
def Partitioned {α : Type} (comp : α → α → Bool) (xs : List α) (v : α) : Prop :=
  ∀ (i j : Nat) (_ : i < j) (hj : j < xs.length),
    comp (xs.get ⟨j, hj⟩) v = true → comp (xs.get ⟨i, by omega⟩) v = true

/-- Two entries tie under the ordering rule when neither compares less than
the other. -/
def tied (qt : Qt) (a b : QFileInfo) : Bool :=
  !fileCompare qt a b && !fileCompare qt b a

/-! ## Reference predicates of the specification -/

/-- The FilterPredicate of the specification, following its words (section 3):
Exclusive mode admits a name only if it matches every pattern, Inclusive mode
admits a name if it matches any pattern and rejects it if none matches. -/
def filterPredicateAdmits (qt : Qt) (mode : FilterMode) (patterns : List String)
    (name : String) : Bool :=
  match mode with
  | FilterMode.Exclusive => patterns.all (fun p => qt.hasMatch p name)
  | FilterMode.Inclusive => patterns.any (fun p => qt.hasMatch p name)

/-- An entry satisfies the configuration of `m`: it is not a directory unless
directories are shown, its name has no leading dot unless hidden files are
shown, and the FilterPredicate admits its name. -/
def satisfiesConfig (qt : Qt) (m : DirModel) (fi : QFileInfo) : Bool :=
  (!startsWithDot fi.fileName || m.mShowHiddenFiles) &&
  (!fi.isDir || m.mShowDirectories) &&
  filterPredicateAdmits qt m.mFilterMode m.mNameFilters fi.fileName

/-- The size of the batch a worker signal carries; `none` for the completion
signal. -/
def batchSize : WorkerSignal → Option Nat
  | WorkerSignal.itemsAdded files => some files.length
  | WorkerSignal.workerFinished => none

/-- The entries a worker signal carries; none for the completion signal. -/
def batchItems : WorkerSignal → List QFileInfo
  | WorkerSignal.itemsAdded files => files
  | WorkerSignal.workerFinished => []

/-- The entries `DirListWorker::run` does not skip. -/
def notSkipped (mShowHidden : Bool) (fi : QFileInfo) : Bool :=
  !(startsWithDot fi.fileName && !mShowHidden)

/-- The two tests of `DirModel::onItemsAdded` that decide whether `fi` is
inserted. -/
def admitted (qt : Qt) (m : DirModel) (fi : QFileInfo) : Bool :=
  !(!m.mShowDirectories && fi.isDir) && doAdd qt m.mFilterMode m.mNameFilters fi.fileName

/-! ## Operations on the view and the scan pipeline -/

/-- A call a client of `DirModel` can make: `setPath` or one of the four
configuration mutators. -/
inductive Call where
  | setPath (pathName : String)
  | setShowDirectories (showDirectories : Bool)
  | setShowHiddenFiles (showHiddenFiles : Bool)
  | setFilterMode (mode : FilterMode)
  | setNameFilters (nameFilters : List String)
  deriving DecidableEq, Repr

/-- The effect of a client call on the model. -/
def DirModel.call (m : DirModel) : Call → DirModel
  | Call.setPath pathName => m.setPath pathName
  | Call.setShowDirectories b => m.setShowDirectories b
  | Call.setShowHiddenFiles b => m.setShowHiddenFiles b
  | Call.setFilterMode mode => m.setFilterMode mode
  | Call.setNameFilters l => m.setNameFilters l

/-- An operation on the view: a client call or the invocation of one of the
two slots. -/
inductive ViewOp where
  | call (c : Call)
  | onItemsAdded (newFiles : List QFileInfo)
  | onResultsFetched
  deriving DecidableEq, Repr

/-- The effect of one operation on the view. -/
def DirModel.apply (qt : Qt) (m : DirModel) : ViewOp → DirModel
  | ViewOp.call c => m.call c
  | ViewOp.onItemsAdded newFiles => m.onItemsAdded qt newFiles
  | ViewOp.onResultsFetched => m.onResultsFetched

/-- The effect of a sequence of operations on the view. -/
def DirModel.applyAll (qt : Qt) (m : DirModel) (ops : List ViewOp) : DirModel :=
  ops.foldl (DirModel.apply qt) m

/-- The view together with the scan pipeline. `taken` counts the requests of
`model.requests` the worker thread has taken off its queue, `running` holds
the signals the running `DirListWorker` has yet to emit, `posted` the signals
emitted and not yet delivered to the view; each signal carries the index of
the request it comes from.

Modelled from the spec: `ioworkerthread.h` is not among the sources; the
worker thread is the single shared background executor of section 9, running
one request at a time in queue order, and signals cross to the owning thread
through an ordered hand-off (section 5). -/
structure System where
  model : DirModel
  taken : Nat
  running : List (Nat × WorkerSignal)
  posted : List (Nat × WorkerSignal)
  deriving DecidableEq, Repr

/-- The steps of the system: a client call, the worker thread starting the
next request on a directory whose iterator yields `it`, the running worker
emitting its next signal, and the delivery of the oldest posted signal. -/
inductive Step where
  | call (c : Call)
  | workerStart (it : List QFileInfo)
  | workerEmit
  | deliver
  deriving DecidableEq, Repr

/-- The freshly constructed view with an idle pipeline. -/
def System.start : System where
  model := DirModel.construct
  taken := 0
  running := []
  posted := []

/-- One step of the system; a step that is not enabled changes nothing. -/
def System.step (qt : Qt) (s : System) : Step → System
  | Step.call c => { s with model := s.model.call c }
  | Step.workerStart it =>
      match s.running, s.model.requests[s.taken]? with
      | [], some w =>
          { s with
            taken := s.taken + 1
            running := (w.run it).map (fun sig => (s.taken, sig)) }
      | _, _ => s
  | Step.workerEmit =>
      match s.running with
      | [] => s
      | sig :: rest => { s with running := rest, posted := s.posted ++ [sig] }
  | Step.deliver =>
      match s.posted with
      | [] => s
      | sig :: rest => { s with model := s.model.deliver qt sig.2, posted := rest }

/-- The state reached from the start by a sequence of steps. -/
def System.exec (qt : Qt) (steps : List Step) : System :=
  steps.foldl (System.step qt) System.start

/-- The invariant behind the configuration conformance of `entries`: every
entry satisfies the configuration, and the current path is non-empty whenever
a scan is awaited or `entries` is non-empty. -/
def ConfigInv (qt : Qt) (m : DirModel) : Prop :=
  (∀ fi ∈ m.mDirectoryContents, satisfiesConfig qt m fi = true) ∧
  (m.mAwaitingResults = true → m.mCurrentDir.isEmpty = false) ∧
  (m.mDirectoryContents ≠ [] → m.mCurrentDir.isEmpty = false)

/-- The invariant of the scan pipeline. While no scan is awaited, every
request has been taken and nothing is running or posted. While a scan is
awaited, either its request is still queued and nothing is running or posted,
or every request has been taken and the signals posted and still to be emitted
are, in order, batches of the latest request followed by its completion. -/
def PipelineInv (s : System) : Prop :=
  (s.model.mAwaitingResults = false →
    s.taken = s.model.requests.length ∧ s.running = [] ∧ s.posted = []) ∧
  (s.model.mAwaitingResults = true →
    (s.taken + 1 = s.model.requests.length ∧ s.running = [] ∧ s.posted = []) ∨
    (s.taken = s.model.requests.length ∧ 1 ≤ s.taken ∧
      ∃ batches : List (List QFileInfo),
        s.posted ++ s.running =
          batches.map (fun b => (s.taken - 1, WorkerSignal.itemsAdded b)) ++
            [(s.taken - 1, WorkerSignal.workerFinished)]))

/-- Whether a step respects the mutator discipline in state `s`: a
configuration mutator is called only while no scan is awaited. `setPath`, the
worker steps and the delivery are always allowed. -/
def stepAllowed (s : System) : Step → Bool
  | Step.call (Call.setPath _) => true
  | Step.call _ => !s.model.mAwaitingResults
  | Step.workerStart _ => true
  | Step.workerEmit => true
  | Step.deliver => true

/-- Whether every step of the sequence respects the mutator discipline in the
state it is taken in. -/
def System.allowed (qt : Qt) : System → List Step → Bool
  | _, [] => true
  | s, st :: rest => stepAllowed s st && System.allowed qt (s.step qt st) rest

/-- The hidden rule along the pipeline: no signal posted or still to be
emitted carries a dot-named entry unless hidden files are shown, and a request
still queued was made with the current `showHiddenFiles`. -/
def HiddenInv (s : System) : Prop :=
  (∀ sig ∈ s.posted ++ s.running, ∀ fi ∈ batchItems sig.2,
    (!startsWithDot fi.fileName || s.model.mShowHiddenFiles) = true) ∧
  (∀ w, s.model.requests[s.taken]? = some w → w.mShowHidden = s.model.mShowHiddenFiles)

/-- The invariant of the system under the mutator discipline. -/
def SystemInv (qt : Qt) (s : System) : Prop :=
  PipelineInv s ∧ ConfigInv qt s.model ∧ HiddenInv s

/-! ## Lemmas on strict weak orders and on `std::lower_bound` -/

theorem StrictWeakOrder.asymm {α : Type} {lt : α → α → Bool} (h : StrictWeakOrder lt)
    (a b : α) (hab : lt a b = true) : lt b a = false := by
  cases hba : lt b a with
  | false => rfl
  | true =>
    have := h.trans a b a hab hba
    rw [h.irrefl a] at this
    exact absurd this (by decide)

theorem StrictWeakOrder.neg_trans {α : Type} {lt : α → α → Bool} (h : StrictWeakOrder lt)
    (a b c : α) (hab : lt a b = false) (hbc : lt b c = false) : lt a c = false := by
  cases hac : lt a c with
  | false => rfl
  | true =>
    cases hba : lt b a with
    | true =>
      have := h.trans b a c hba hac
      rw [hbc] at this
      exact absurd this (by decide)
    | false =>
      cases hcb : lt c b with
      | true =>
        have := h.trans a c b hac hcb
        rw [hab] at this
        exact absurd this (by decide)
      | false =>
        have := (h.incomp_trans a b c hab hba hbc hcb).1
        rw [hac] at this
        exact absurd this (by decide)

theorem fileCompare_strictWeakOrder (qt : Qt) (h : StrictWeakOrder (nameLess qt)) :
    StrictWeakOrder (fileCompare qt) := by
  refine ⟨?_, ?_, ?_⟩
  · intro a
    have := h.irrefl a.fileName
    unfold nameLess at this
    cases hd : a.isDir <;> simp [fileCompare, hd, this]
  · intro a b c hab hbc
    have ht := h.trans a.fileName b.fileName c.fileName
    unfold nameLess at ht
    cases ha : a.isDir <;> cases hb : b.isDir <;> cases hc : c.isDir <;>
      simp [fileCompare, ha, hb, hc] at hab hbc ⊢ <;>
      simpa using ht (by simpa using hab) (by simpa using hbc)
  · intro a b c hab hba hbc hcb
    have ht := h.incomp_trans a.fileName b.fileName c.fileName
    unfold nameLess at ht
    cases ha : a.isDir <;> cases hb : b.isDir <;> cases hc : c.isDir <;>
      simp [fileCompare, ha, hb, hc] at hab hba hbc hcb ⊢ <;>
      simpa using ht (by simpa using hab) (by simpa using hba) (by simpa using hbc)
        (by simpa using hcb)

theorem lowerBoundLoop_spec {α : Type} (comp : α → α → Bool) (xs : List α) (v : α)
    (hmono : Partitioned comp xs v) :
    ∀ (fuel first len : Nat), len ≤ fuel → first + len ≤ xs.length →
      (∀ (i : Nat) (h : i < xs.length), i < first → comp (xs.get ⟨i, h⟩) v = true) →
      (∀ (i : Nat) (h : i < xs.length), first + len ≤ i → comp (xs.get ⟨i, h⟩) v = false) →
      lowerBoundLoop comp xs v fuel first len ≤ xs.length ∧
      (∀ (i : Nat) (h : i < xs.length), i < lowerBoundLoop comp xs v fuel first len →
        comp (xs.get ⟨i, h⟩) v = true) ∧
      (∀ (i : Nat) (h : i < xs.length), lowerBoundLoop comp xs v fuel first len ≤ i →
        comp (xs.get ⟨i, h⟩) v = false) := by
  intro fuel
  induction fuel with
  | zero =>
    intro first len hlen hbound hlo hhi
    have hl0 : len = 0 := by omega
    subst hl0
    simp only [lowerBoundLoop]
    exact ⟨by omega, hlo, fun i h hi => hhi i h (by omega)⟩
  | succ fuel ih =>
    intro first len hlen hbound hlo hhi
    by_cases hpos : len > 0
    · have hmid : first + len / 2 < xs.length := by
        have : len / 2 < len := Nat.div_lt_self hpos (by decide)
        omega
      have hget : xs[first + len / 2]? = some (xs.get ⟨first + len / 2, hmid⟩) := by
        simp [List.getElem?_eq_getElem hmid]
      cases hc : comp (xs.get ⟨first + len / 2, hmid⟩) v with
      | true =>
        have hstep : lowerBoundLoop comp xs v (fuel + 1) first len =
            lowerBoundLoop comp xs v fuel (first + len / 2 + 1) (len - len / 2 - 1) := by
          simp only [lowerBoundLoop, hpos, if_true, hget, hc]
        rw [hstep]
        have hh : len / 2 < len := Nat.div_lt_self hpos (by decide)
        apply ih
        · omega
        · omega
        · intro i h hi
          by_cases heq : i = first + len / 2
          · subst heq; exact hc
          · exact hmono i (first + len / 2) (by omega) hmid hc
        · intro i h hi
          exact hhi i h (by omega)
      | false =>
        have hstep : lowerBoundLoop comp xs v (fuel + 1) first len =
            lowerBoundLoop comp xs v fuel first (len / 2) := by
          simp only [lowerBoundLoop, hpos, if_true, hget, hc]
          simp
        rw [hstep]
        have hh : len / 2 < len := Nat.div_lt_self hpos (by decide)
        apply ih
        · omega
        · omega
        · exact hlo
        · intro i h hi
          by_cases heq : i = first + len / 2
          · subst heq; exact hc
          · cases hci : comp (xs.get ⟨i, h⟩) v with
            | false => rfl
            | true =>
              have := hmono (first + len / 2) i (by omega) h hci
              rw [hc] at this
              exact absurd this (by decide)
    · have hl0 : len = 0 := by omega
      subst hl0
      simp only [lowerBoundLoop, gt_iff_lt, Nat.lt_irrefl, if_false]
      exact ⟨by omega, hlo, fun i h hi => hhi i h (by omega)⟩

/-- On a partitioned list `lower_bound` returns the partition point. -/
theorem lower_bound_spec {α : Type} (comp : α → α → Bool) (xs : List α) (v : α)
    (hmono : Partitioned comp xs v) :
    lower_bound comp xs v ≤ xs.length ∧
    (∀ x ∈ xs.take (lower_bound comp xs v), comp x v = true) ∧
    (∀ x ∈ xs.drop (lower_bound comp xs v), comp x v = false) := by
  have h := lowerBoundLoop_spec comp xs v hmono xs.length 0 xs.length (Nat.le_refl _)
    (by omega) (fun i _ hi => absurd hi (Nat.not_lt_zero i)) (fun i h hi => by omega)
  refine ⟨h.1, ?_, ?_⟩
  · intro x hx
    rw [List.mem_take_iff_getElem] at hx
    obtain ⟨i, hi, rfl⟩ := hx
    have hi2 : i < xs.length := by omega
    exact h.2.1 i hi2 (by change i < lower_bound comp xs v; omega)
  · intro x hx
    rw [List.mem_drop_iff_getElem] at hx
    obtain ⟨i, hi, rfl⟩ := hx
    exact h.2.2 (lower_bound comp xs v + i) (by omega)
      (by change lower_bound comp xs v ≤ lower_bound comp xs v + i; omega)

/-- A list sorted under a strict weak order is partitioned with respect to
every value. -/
theorem partitioned_of_pairwise {α : Type} (comp : α → α → Bool) (hswo : StrictWeakOrder comp)
    (xs : List α) (v : α) (hs : xs.Pairwise (fun a b => comp b a = false)) :
    Partitioned comp xs v := by
  intro i j hij hj hc
  have hpw := List.pairwise_iff_get.mp hs ⟨i, by omega⟩ ⟨j, hj⟩ hij
  cases hci : comp (xs.get ⟨i, by omega⟩) v with
  | true => rfl
  | false =>
    have := hswo.neg_trans _ _ _ hpw hci
    rw [hc] at this
    exact absurd this (by decide)

/-- Inserting `v` at its lower bound keeps a sorted list sorted. -/
theorem pairwise_insert_lower_bound {α : Type} (comp : α → α → Bool)
    (hswo : StrictWeakOrder comp) (xs : List α) (v : α)
    (hs : xs.Pairwise (fun a b => comp b a = false)) :
    (xs.take (lower_bound comp xs v) ++ v :: xs.drop (lower_bound comp xs v)).Pairwise
      (fun a b => comp b a = false) := by
  have hspec := lower_bound_spec comp xs v (partitioned_of_pairwise comp hswo xs v hs)
  have hsplit : (xs.take (lower_bound comp xs v) ++ xs.drop (lower_bound comp xs v)).Pairwise
      (fun a b => comp b a = false) := by
    rw [List.take_append_drop]; exact hs
  rw [List.pairwise_append] at hsplit ⊢
  refine ⟨hsplit.1, ?_, ?_⟩
  · rw [List.pairwise_cons]
    exact ⟨fun b hb => hspec.2.2 b hb, hsplit.2.1⟩
  · intro a ha b hb
    rw [List.mem_cons] at hb
    rcases hb with rfl | hb
    · exact hswo.asymm _ _ (hspec.2.1 a ha)
    · exact hsplit.2.2 a ha b hb

/-! ## The sample comparison is a strict weak order -/

theorem compareChars_self (a : List Char) : compareChars a a = 0 := by
  induction a with
  | nil => rfl
  | cons x xs ih => simp [compareChars, ih]

theorem compareChars_eq_zero : ∀ (a b : List Char), compareChars a b = 0 → a = b := by
  intro a
  induction a with
  | nil =>
    intro b h
    cases b with
    | nil => rfl
    | cons y ys => simp [compareChars] at h
  | cons x xs ih =>
    intro b h
    cases b with
    | nil => simp [compareChars] at h
    | cons y ys =>
      by_cases h1 : x < y
      · simp [compareChars, h1] at h
      · by_cases h2 : y < x
        · simp [compareChars, h1, h2] at h
        · simp only [compareChars, h1, h2, if_false] at h
          have hxy : x = y := le_antisymm (not_lt.mp h2) (not_lt.mp h1)
          rw [hxy, ih ys h]

theorem compareChars_neg_swap : ∀ (a b : List Char), compareChars a b < 0 → 0 < compareChars b a := by
  intro a
  induction a with
  | nil =>
    intro b h
    cases b with
    | nil => simp [compareChars] at h
    | cons y ys => simp [compareChars]
  | cons x xs ih =>
    intro b h
    cases b with
    | nil => simp [compareChars] at h
    | cons y ys =>
      by_cases h1 : x < y
      · simp [compareChars, h1, lt_asymm h1]
      · by_cases h2 : y < x
        · simp [compareChars, h1, h2] at h
        · simp only [compareChars, h1, h2, if_false] at h ⊢
          exact ih ys h

theorem compareChars_pos_swap : ∀ (a b : List Char), 0 < compareChars a b → compareChars b a < 0 := by
  intro a
  induction a with
  | nil =>
    intro b h
    cases b with
    | nil => simp [compareChars] at h
    | cons y ys => simp [compareChars] at h
  | cons x xs ih =>
    intro b h
    cases b with
    | nil => simp [compareChars]
    | cons y ys =>
      by_cases h1 : x < y
      · simp [compareChars, h1] at h
      · by_cases h2 : y < x
        · simp [compareChars, h2]
        · simp only [compareChars, h1, h2, if_false] at h ⊢
          exact ih ys h

theorem compareChars_trans : ∀ (a b c : List Char),
    compareChars a b < 0 → compareChars b c < 0 → compareChars a c < 0 := by
  intro a
  induction a with
  | nil =>
    intro b c hab hbc
    cases c with
    | nil =>
      cases b with
      | nil => simp [compareChars] at hab
      | cons y ys => simp [compareChars] at hbc
    | cons z zs => simp [compareChars]
  | cons x xs ih =>
    intro b c hab hbc
    cases b with
    | nil => simp [compareChars] at hab
    | cons y ys =>
      cases c with
      | nil => simp [compareChars] at hbc
      | cons z zs =>
        by_cases h1 : x < y
        · by_cases h3 : y < z
          · simp [compareChars, lt_trans h1 h3]
          · by_cases h4 : z < y
            · simp [compareChars, h3, h4] at hbc
            · have hyz : y = z := le_antisymm (not_lt.mp h4) (not_lt.mp h3)
              subst hyz
              simp [compareChars, h1]
        · by_cases h2 : y < x
          · simp [compareChars, h1, h2] at hab
          · have hxy : x = y := le_antisymm (not_lt.mp h2) (not_lt.mp h1)
            subst hxy
            by_cases h3 : x < z
            · simp [compareChars, h3]
            · by_cases h4 : z < x
              · simp [compareChars, h3, h4] at hbc
              · simp only [compareChars, h1, h3, h4, if_false] at hab hbc ⊢
                exact ih ys zs hab hbc

theorem sampleQt_strictWeakOrder : StrictWeakOrder (nameLess sampleQt) := by
  have key : ∀ (a b : String), nameLess sampleQt a b = false → nameLess sampleQt b a = false →
      a.data = b.data := by
    intro a b hab hba
    simp only [nameLess, sampleQt, codePointCompare, decide_eq_false_iff_not, not_lt] at hab hba
    apply compareChars_eq_zero
    rcases lt_or_eq_of_le hab with h | h
    · have := compareChars_pos_swap _ _ h
      omega
    · exact h.symm
  refine ⟨?_, ?_, ?_⟩
  · intro a
    simp [nameLess, sampleQt, codePointCompare, compareChars_self]
  · intro a b c hab hbc
    simp only [nameLess, sampleQt, codePointCompare, decide_eq_true_eq] at hab hbc ⊢
    exact compareChars_trans _ _ _ hab hbc
  · intro a b c hab hba hbc hcb
    have h1 := key a b hab hba
    have h2 := key b c hbc hcb
    simp only [nameLess, sampleQt, codePointCompare, h1, h2, compareChars_self]
    simp

/-! ## Lemmas on `onItemsAdded` -/

theorem filterLoop_exclusive (qt : Qt) (name : String) (pats : List String) :
    filterLoop qt FilterMode.Exclusive name pats true = pats.all (fun p => qt.hasMatch p name) := by
  induction pats with
  | nil => rfl
  | cons p ps ih =>
    cases hm : qt.hasMatch p name <;> simp [filterLoop, hm, ih]

theorem filterLoop_inclusive (qt : Qt) (name : String) (pats : List String) :
    filterLoop qt FilterMode.Inclusive name pats false = pats.any (fun p => qt.hasMatch p name) := by
  induction pats with
  | nil => rfl
  | cons p ps ih =>
    cases hm : qt.hasMatch p name <;> simp [filterLoop, hm, ih]

theorem doAdd_eq_filterPredicateAdmits (qt : Qt) (mode : FilterMode) (pats : List String)
    (name : String) : doAdd qt mode pats name = filterPredicateAdmits qt mode pats name := by
  cases mode with
  | Exclusive => simpa [doAdd, filterPredicateAdmits] using filterLoop_exclusive qt name pats
  | Inclusive => simpa [doAdd, filterPredicateAdmits] using filterLoop_inclusive qt name pats

theorem addItem_contents (qt : Qt) (m : DirModel) (fi : QFileInfo) :
    (m.addItem qt fi).mDirectoryContents =
      if admitted qt m fi then
        m.mDirectoryContents.take (lower_bound (fileCompare qt) m.mDirectoryContents fi) ++
          fi :: m.mDirectoryContents.drop (lower_bound (fileCompare qt) m.mDirectoryContents fi)
      else m.mDirectoryContents := by
  by_cases hA : admitted qt m fi = true
  · rw [if_pos hA]
    have h12 : (!m.mShowDirectories && fi.isDir) = false ∧
        doAdd qt m.mFilterMode m.mNameFilters fi.fileName = true := by
      unfold admitted at hA
      revert hA
      cases (!m.mShowDirectories && fi.isDir) <;>
        cases doAdd qt m.mFilterMode m.mNameFilters fi.fileName <;> simp
    simp only [DirModel.addItem, h12.1, h12.2, Bool.not_true, Bool.false_eq_true, if_false]
    by_cases h3 : lower_bound (fileCompare qt) m.mDirectoryContents fi = m.mDirectoryContents.length
    · rw [if_pos h3, h3]
      simp
    · rw [if_neg h3]
  · rw [if_neg hA]
    have h12 : (!m.mShowDirectories && fi.isDir) = true ∨
        doAdd qt m.mFilterMode m.mNameFilters fi.fileName = false := by
      unfold admitted at hA
      revert hA
      cases (!m.mShowDirectories && fi.isDir) <;>
        cases doAdd qt m.mFilterMode m.mNameFilters fi.fileName <;> simp
    rcases h12 with h | h
    · simp only [DirModel.addItem, h, if_true]
    · simp only [DirModel.addItem, h, Bool.not_false, if_true]
      split_ifs <;> rfl

theorem addItem_config (qt : Qt) (m : DirModel) (fi : QFileInfo) :
    (m.addItem qt fi).mFilterMode = m.mFilterMode ∧
    (m.addItem qt fi).mShowDirectories = m.mShowDirectories ∧
    (m.addItem qt fi).mNameFilters = m.mNameFilters ∧
    (m.addItem qt fi).mShowHiddenFiles = m.mShowHiddenFiles ∧
    (m.addItem qt fi).mAwaitingResults = m.mAwaitingResults ∧
    (m.addItem qt fi).mCurrentDir = m.mCurrentDir ∧
    (m.addItem qt fi).requests = m.requests := by
  simp only [DirModel.addItem]
  split_ifs <;> simp

theorem onItemsAdded_config (qt : Qt) (newFiles : List QFileInfo) : ∀ (m : DirModel),
    (m.onItemsAdded qt newFiles).mFilterMode = m.mFilterMode ∧
    (m.onItemsAdded qt newFiles).mShowDirectories = m.mShowDirectories ∧
    (m.onItemsAdded qt newFiles).mNameFilters = m.mNameFilters ∧
    (m.onItemsAdded qt newFiles).mShowHiddenFiles = m.mShowHiddenFiles ∧
    (m.onItemsAdded qt newFiles).mAwaitingResults = m.mAwaitingResults ∧
    (m.onItemsAdded qt newFiles).mCurrentDir = m.mCurrentDir ∧
    (m.onItemsAdded qt newFiles).requests = m.requests := by
  induction newFiles with
  | nil => intro m; simp [DirModel.onItemsAdded]
  | cons fi rest ih =>
    intro m
    have h1 := addItem_config qt m fi
    have h2 := ih (m.addItem qt fi)
    simp only [DirModel.onItemsAdded, List.foldl_cons] at h2 ⊢
    obtain ⟨a1, a2, a3, a4, a5, a6, a7⟩ := h1
    obtain ⟨b1, b2, b3, b4, b5, b6, b7⟩ := h2
    exact ⟨b1.trans a1, b2.trans a2, b3.trans a3, b4.trans a4, b5.trans a5, b6.trans a6,
      b7.trans a7⟩

theorem addItem_sorted (qt : Qt) (hswo : StrictWeakOrder (nameLess qt)) (m : DirModel)
    (fi : QFileInfo) (hs : Sorted qt m.mDirectoryContents) :
    Sorted qt (m.addItem qt fi).mDirectoryContents := by
  rw [addItem_contents]
  split_ifs
  · exact pairwise_insert_lower_bound (fileCompare qt) (fileCompare_strictWeakOrder qt hswo)
      m.mDirectoryContents fi hs
  · exact hs

theorem admitted_congr (qt : Qt) (m m1 : DirModel) (h1 : m1.mFilterMode = m.mFilterMode)
    (h2 : m1.mShowDirectories = m.mShowDirectories) (h3 : m1.mNameFilters = m.mNameFilters) :
    admitted qt m1 = admitted qt m := by
  funext fi
  simp [admitted, h1, h2, h3]

theorem onItemsAdded_perm (qt : Qt) (newFiles : List QFileInfo) : ∀ (m : DirModel),
    List.Perm (m.onItemsAdded qt newFiles).mDirectoryContents
      (m.mDirectoryContents ++ newFiles.filter (admitted qt m)) := by
  induction newFiles with
  | nil => intro m; simp [DirModel.onItemsAdded]
  | cons fi rest ih =>
    intro m
    have hcfg := addItem_config qt m fi
    have h := ih (m.addItem qt fi)
    rw [admitted_congr qt m (m.addItem qt fi) hcfg.1 hcfg.2.1 hcfg.2.2.1, addItem_contents] at h
    simp only [DirModel.onItemsAdded, List.foldl_cons] at h ⊢
    refine h.trans ?_
    by_cases hA : admitted qt m fi = true
    · rw [if_pos hA, List.filter_cons, if_pos hA]
      have h1 : List.Perm
          (m.mDirectoryContents.take (lower_bound (fileCompare qt) m.mDirectoryContents fi) ++
            fi :: m.mDirectoryContents.drop (lower_bound (fileCompare qt) m.mDirectoryContents fi))
          (fi :: m.mDirectoryContents) := by
        refine List.perm_middle.trans ?_
        rw [List.take_append_drop]
      refine (h1.append_right _).trans ?_
      exact (@List.perm_middle _ fi m.mDirectoryContents (rest.filter (admitted qt m))).symm
    · rw [if_neg hA, List.filter_cons, if_neg hA]

theorem onResultsFetched_contents (m : DirModel) :
    m.onResultsFetched.mDirectoryContents = m.mDirectoryContents := by
  unfold DirModel.onResultsFetched
  split_ifs <;> rfl

theorem runLoop_skip (sh : Bool) (fi : QFileInfo) (it acc : List QFileInfo)
    (h : notSkipped sh fi = false) :
    DirListWorker.runLoop sh (fi :: it) acc = DirListWorker.runLoop sh it acc := by
  have h1 : (startsWithDot fi.fileName && !sh) = true := by
    simp only [notSkipped] at h
    cases hc : (startsWithDot fi.fileName && !sh)
    · rw [hc] at h; exact absurd h (by decide)
    · rfl
  simp only [DirListWorker.runLoop, h1, if_true]

theorem runLoop_flush (sh : Bool) (fi : QFileInfo) (it acc : List QFileInfo)
    (h : notSkipped sh fi = true) (hfull : 50 ≤ acc.length + 1) :
    DirListWorker.runLoop sh (fi :: it) acc =
      WorkerSignal.itemsAdded (acc ++ [fi]) :: DirListWorker.runLoop sh it [] := by
  have h1 : ¬ (startsWithDot fi.fileName && !sh) = true := by
    simp only [notSkipped] at h
    intro hc
    rw [hc] at h
    exact absurd h (by decide)
  have h2 : (acc ++ [fi]).length ≥ 50 := by simpa using hfull
  simp only [DirListWorker.runLoop, h1, if_false, h2, if_true]
  simp

theorem runLoop_keep (sh : Bool) (fi : QFileInfo) (it acc : List QFileInfo)
    (h : notSkipped sh fi = true) (hroom : acc.length + 1 < 50) :
    DirListWorker.runLoop sh (fi :: it) acc = DirListWorker.runLoop sh it (acc ++ [fi]) := by
  have h1 : ¬ (startsWithDot fi.fileName && !sh) = true := by
    simp only [notSkipped] at h
    intro hc
    rw [hc] at h
    exact absurd h (by decide)
  have h2 : ¬ (acc ++ [fi]).length ≥ 50 := by
    simp only [List.length_append, List.length_singleton]; omega
  simp only [DirListWorker.runLoop, h1, if_false, h2]
  simp

theorem runLoop_perm (qt : Qt) (sh : Bool) : ∀ (it acc : List QFileInfo) (m : DirModel),
    List.Perm ((DirListWorker.runLoop sh it acc).foldl (DirModel.deliver qt) m).mDirectoryContents
      (m.mDirectoryContents ++ (acc ++ it.filter (notSkipped sh)).filter (admitted qt m)) := by
  intro it
  induction it with
  | nil =>
    intro acc m
    simp only [DirListWorker.runLoop, List.foldl_cons, List.foldl_nil, DirModel.deliver,
      onResultsFetched_contents, List.filter_nil, List.append_nil]
    exact onItemsAdded_perm qt acc m
  | cons fi it ih =>
    intro acc m
    cases hns : notSkipped sh fi with
    | false =>
      rw [runLoop_skip sh fi it acc hns, List.filter_cons, hns]
      exact ih acc m
    | true =>
      have hf : (fi :: it).filter (notSkipped sh) = fi :: it.filter (notSkipped sh) := by
        rw [List.filter_cons, hns]; rfl
      have e : acc ++ fi :: it.filter (notSkipped sh) = (acc ++ [fi]) ++ it.filter (notSkipped sh) := by
        simp
      rw [hf, e]
      by_cases hfull : 50 ≤ acc.length + 1
      · rw [runLoop_flush sh fi it acc hns hfull]
        simp only [List.foldl_cons, DirModel.deliver]
        have hcfg := onItemsAdded_config qt (acc ++ [fi]) m
        have h := ih [] (m.onItemsAdded qt (acc ++ [fi]))
        rw [admitted_congr qt m _ hcfg.1 hcfg.2.1 hcfg.2.2.1, List.nil_append] at h
        refine h.trans ?_
        rw [List.filter_append, ← List.append_assoc]
        exact (onItemsAdded_perm qt (acc ++ [fi]) m).append_right _
      · rw [runLoop_keep sh fi it acc hns (by omega)]
        exact ih (acc ++ [fi]) m

theorem runLoop_sizes (sh : Bool) : ∀ (it acc : List QFileInfo), acc.length < 50 →
    (DirListWorker.runLoop sh it acc).map batchSize =
      List.replicate ((acc.length + (it.filter (notSkipped sh)).length) / 50) (some 50) ++
        [some ((acc.length + (it.filter (notSkipped sh)).length) % 50), none] := by
  intro it
  induction it with
  | nil =>
    intro acc hacc
    have h1 : acc.length / 50 = 0 := by omega
    have h2 : acc.length % 50 = acc.length := by omega
    simp [DirListWorker.runLoop, batchSize, h1, h2]
  | cons fi it ih =>
    intro acc hacc
    cases hns : notSkipped sh fi with
    | false =>
      rw [runLoop_skip sh fi it acc hns, List.filter_cons, hns]
      exact ih acc hacc
    | true =>
      have hf : (fi :: it).filter (notSkipped sh) = fi :: it.filter (notSkipped sh) := by
        rw [List.filter_cons, hns]; rfl
      rw [hf, List.length_cons]
      by_cases hfull : 50 ≤ acc.length + 1
      · have hlen : acc.length = 49 := by omega
        rw [runLoop_flush sh fi it acc hns hfull, List.map_cons, ih [] (by simp)]
        have e1 : (acc.length + ((it.filter (notSkipped sh)).length + 1)) / 50 =
            (it.filter (notSkipped sh)).length / 50 + 1 := by omega
        have e2 : (acc.length + ((it.filter (notSkipped sh)).length + 1)) % 50 =
            (it.filter (notSkipped sh)).length % 50 := by omega
        rw [e1, e2, List.replicate_succ]
        simp [batchSize, hlen]
      · rw [runLoop_keep sh fi it acc hns (by omega), ih (acc ++ [fi]) (by simp; omega)]
        simp only [List.length_append, List.length_singleton]
        have e : acc.length + 1 + (it.filter (notSkipped sh)).length =
            acc.length + ((it.filter (notSkipped sh)).length + 1) := by omega
        rw [e]

theorem foldl_addItem_sorted (qt : Qt) (hswo : StrictWeakOrder (nameLess qt))
    (newFiles : List QFileInfo) : ∀ (m : DirModel), Sorted qt m.mDirectoryContents →
    Sorted qt (newFiles.foldl (DirModel.addItem qt) m).mDirectoryContents := by
  induction newFiles with
  | nil => intro m hs; exact hs
  | cons fi rest ih =>
    intro m hs
    exact ih (m.addItem qt fi) (addItem_sorted qt hswo m fi hs)

/-! ## Lemmas on configuration conformance -/

theorem satisfiesConfig_congr (qt : Qt) (m m1 : DirModel) (h1 : m1.mFilterMode = m.mFilterMode)
    (h2 : m1.mShowDirectories = m.mShowDirectories) (h3 : m1.mNameFilters = m.mNameFilters)
    (h4 : m1.mShowHiddenFiles = m.mShowHiddenFiles) :
    satisfiesConfig qt m1 = satisfiesConfig qt m := by
  funext fi
  simp [satisfiesConfig, h1, h2, h3, h4]

theorem configInv_setPath (qt : Qt) (m : DirModel) (pathName : String) (hinv : ConfigInv qt m) :
    ConfigInv qt (m.setPath pathName) := by
  unfold DirModel.setPath
  split_ifs with h1 h2
  · exact hinv
  · exact hinv
  · refine ⟨?_, ?_, ?_⟩
    · intro fi hfi
      simp at hfi
    · intro _
      simpa using h1
    · intro h
      simp at h

theorem configInv_refresh_idle (qt : Qt) (m m1 : DirModel) (hinv : ConfigInv qt m)
    (hidle : m.mAwaitingResults = false)
    (hc : m1.mDirectoryContents = m.mDirectoryContents)
    (ha : m1.mAwaitingResults = m.mAwaitingResults) (hd : m1.mCurrentDir = m.mCurrentDir) :
    ConfigInv qt m1.refresh := by
  unfold DirModel.refresh DirModel.setPath
  split_ifs with h1 h2
  · have hnil : m.mDirectoryContents = [] := by
      by_contra hne
      have := hinv.2.2 hne
      rw [hd] at h1
      rw [this] at h1
      exact absurd h1 (by decide)
    refine ⟨?_, ?_, ?_⟩
    · intro fi hfi
      rw [hc, hnil] at hfi
      simp at hfi
    · intro h
      rw [ha, hidle] at h
      exact absurd h (by decide)
    · intro h
      rw [hc, hnil] at h
      exact absurd rfl h
  · rw [ha, hidle] at h2
    exact absurd h2 (by decide)
  · refine ⟨?_, ?_, ?_⟩
    · intro fi hfi
      simp at hfi
    · intro _
      simpa using h1
    · intro h
      simp at h

theorem configInv_emitted (qt : Qt) (m : DirModel) (sigs : List Signal) (hinv : ConfigInv qt m) :
    ConfigInv qt { m with emitted := sigs } := by
  obtain ⟨h1, h2, h3⟩ := hinv
  exact ⟨h1, h2, h3⟩

theorem configInv_call_idle (qt : Qt) (m : DirModel) (c : Call) (hinv : ConfigInv qt m)
    (hidle : m.mAwaitingResults = false) : ConfigInv qt (m.call c) := by
  cases c with
  | setPath pathName => exact configInv_setPath qt m pathName hinv
  | setShowDirectories b =>
    simp only [DirModel.call, DirModel.setShowDirectories]
    exact configInv_emitted qt _ _
      (configInv_refresh_idle qt m { m with mShowDirectories := b } hinv hidle rfl rfl rfl)
  | setShowHiddenFiles b =>
    simp only [DirModel.call, DirModel.setShowHiddenFiles]
    split_ifs
    · exact configInv_emitted qt _ _
        (configInv_refresh_idle qt m { m with mShowHiddenFiles := b } hinv hidle rfl rfl rfl)
    · exact hinv
  | setFilterMode mode =>
    simp only [DirModel.call, DirModel.setFilterMode]
    split_ifs
    · exact hinv
    · exact configInv_emitted qt _ _
        (configInv_refresh_idle qt m { m with mFilterMode := mode } hinv hidle rfl rfl rfl)
  | setNameFilters l =>
    simp only [DirModel.call, DirModel.setNameFilters]
    exact configInv_emitted qt _ _
      (configInv_refresh_idle qt m { m with mNameFilters := l } hinv hidle rfl rfl rfl)

theorem configInv_onItemsAdded (qt : Qt) (m : DirModel) (newFiles : List QFileInfo)
    (hinv : ConfigInv qt m) (haw : m.mAwaitingResults = true)
    (hhid : ∀ fi ∈ newFiles, (!startsWithDot fi.fileName || m.mShowHiddenFiles) = true) :
    ConfigInv qt (m.onItemsAdded qt newFiles) := by
  have hcfg := onItemsAdded_config qt newFiles m
  have hperm := onItemsAdded_perm qt newFiles m
  refine ⟨?_, ?_, ?_⟩
  · intro fi hfi
    rw [satisfiesConfig_congr qt m _ hcfg.1 hcfg.2.1 hcfg.2.2.1 hcfg.2.2.2.1]
    have hmem := hperm.mem_iff.mp hfi
    rw [List.mem_append] at hmem
    rcases hmem with h | h
    · exact hinv.1 fi h
    · rw [List.mem_filter] at h
      have h1 := hhid fi h.1
      have h2 := h.2
      simp only [admitted, doAdd_eq_filterPredicateAdmits] at h2
      simp only [satisfiesConfig]
      revert h1 h2
      cases startsWithDot fi.fileName <;> cases m.mShowHiddenFiles <;> cases fi.isDir <;>
        cases m.mShowDirectories <;>
        cases filterPredicateAdmits qt m.mFilterMode m.mNameFilters fi.fileName <;> simp
  · intro _
    rw [hcfg.2.2.2.2.2.1]
    exact hinv.2.1 haw
  · intro _
    rw [hcfg.2.2.2.2.2.1]
    exact hinv.2.1 haw

theorem configInv_onResultsFetched (qt : Qt) (m : DirModel) (hinv : ConfigInv qt m) :
    ConfigInv qt m.onResultsFetched := by
  unfold DirModel.onResultsFetched
  split_ifs with h
  · obtain ⟨h1, h2, h3⟩ := hinv
    refine ⟨h1, ?_, h3⟩
    intro hc
    simp at hc
  · exact hinv

theorem configInv_construct (qt : Qt) : ConfigInv qt DirModel.construct := by
  refine ⟨?_, ?_, ?_⟩
  · intro fi hfi
    simp [DirModel.construct] at hfi
  · intro h
    simp [DirModel.construct] at h
  · intro h
    simp [DirModel.construct] at h

/-! ## Lemmas on the scan pipeline -/

theorem runLoop_shape (sh : Bool) : ∀ (it acc : List QFileInfo),
    ∃ batches : List (List QFileInfo),
      DirListWorker.runLoop sh it acc =
        batches.map WorkerSignal.itemsAdded ++ [WorkerSignal.workerFinished] := by
  intro it
  induction it with
  | nil =>
    intro acc
    exact ⟨[acc], by simp [DirListWorker.runLoop]⟩
  | cons fi it ih =>
    intro acc
    cases hns : notSkipped sh fi with
    | false =>
      rw [runLoop_skip sh fi it acc hns]
      exact ih acc
    | true =>
      by_cases hfull : 50 ≤ acc.length + 1
      · rw [runLoop_flush sh fi it acc hns hfull]
        obtain ⟨bs, hbs⟩ := ih []
        exact ⟨(acc ++ [fi]) :: bs, by rw [hbs]; simp⟩
      · rw [runLoop_keep sh fi it acc hns (by omega)]
        exact ih (acc ++ [fi])

theorem setPath_effect (m : DirModel) (pathName : String) :
    ((m.setPath pathName).mAwaitingResults = m.mAwaitingResults ∧
      (m.setPath pathName).requests = m.requests) ∨
    (m.mAwaitingResults = false ∧ (m.setPath pathName).mAwaitingResults = true ∧
      ∃ w, (m.setPath pathName).requests = m.requests ++ [w]) := by
  unfold DirModel.setPath
  split_ifs with h1 h2
  · exact Or.inl ⟨rfl, rfl⟩
  · exact Or.inl ⟨rfl, rfl⟩
  · exact Or.inr ⟨by simpa using h2, rfl, _, rfl⟩

theorem call_effect (m : DirModel) (c : Call) :
    ((m.call c).mAwaitingResults = m.mAwaitingResults ∧ (m.call c).requests = m.requests) ∨
    (m.mAwaitingResults = false ∧ (m.call c).mAwaitingResults = true ∧
      ∃ w, (m.call c).requests = m.requests ++ [w]) := by
  cases c with
  | setPath pathName => exact setPath_effect m pathName
  | setShowDirectories b =>
    simp only [DirModel.call, DirModel.setShowDirectories, DirModel.refresh]
    exact setPath_effect { m with mShowDirectories := b } m.mCurrentDir
  | setShowHiddenFiles b =>
    simp only [DirModel.call, DirModel.setShowHiddenFiles, DirModel.refresh]
    split_ifs
    · exact setPath_effect { m with mShowHiddenFiles := b } m.mCurrentDir
    · exact Or.inl ⟨rfl, rfl⟩
  | setFilterMode mode =>
    simp only [DirModel.call, DirModel.setFilterMode, DirModel.refresh]
    split_ifs
    · exact Or.inl ⟨rfl, rfl⟩
    · exact setPath_effect { m with mFilterMode := mode } m.mCurrentDir
  | setNameFilters l =>
    simp only [DirModel.call, DirModel.setNameFilters, DirModel.refresh]
    exact setPath_effect { m with mNameFilters := l } m.mCurrentDir

theorem pipelineInv_start : PipelineInv System.start := by
  refine ⟨fun _ => ⟨rfl, rfl, rfl⟩, fun h => ?_⟩
  simp [System.start, DirModel.construct] at h

theorem pipelineInv_call (s : System) (c : Call) (hinv : PipelineInv s) :
    PipelineInv { s with model := s.model.call c } := by
  rcases call_effect s.model c with ⟨ha, hr⟩ | ⟨hidle, ha, w, hr⟩
  · unfold PipelineInv
    simp only [ha, hr]
    exact hinv
  · obtain ⟨ht, hrun, hpost⟩ := hinv.1 hidle
    refine ⟨fun h => ?_, fun _ => Or.inl ⟨?_, hrun, hpost⟩⟩
    · simp only [ha] at h
      exact absurd h (by decide)
    · simp only [hr, List.length_append, List.length_singleton]
      omega

theorem pipelineInv_workerStart (s : System) (it : List QFileInfo) (w : DirListWorker)
    (hinv : PipelineInv s) (hw : s.model.requests[s.taken]? = some w) :
    PipelineInv { s with
      taken := s.taken + 1
      running := (w.run it).map (fun sig => (s.taken, sig)) } := by
  have hlt : s.taken < s.model.requests.length := by
    rcases Nat.lt_or_ge s.taken s.model.requests.length with h | h
    · exact h
    · rw [List.getElem?_eq_none h] at hw
      exact absurd hw (by simp)
  cases haw : s.model.mAwaitingResults with
  | false =>
    have := (hinv.1 haw).1
    omega
  | true =>
    rcases hinv.2 haw with ⟨ht, _, hpost⟩ | ⟨ht, _, _⟩
    · refine ⟨fun h => ?_, fun _ => Or.inr ⟨?_, ?_, ?_⟩⟩
      · simp only [haw] at h
        exact absurd h (by decide)
      · exact ht
      · simp
      · obtain ⟨bs, hbs⟩ := runLoop_shape w.mShowHidden it []
        refine ⟨bs, ?_⟩
        simp only [hpost, List.nil_append, DirListWorker.run, hbs, List.map_append, List.map_map,
          List.map_cons, List.map_nil, Nat.add_sub_cancel]
        rfl
    · omega

theorem pipelineInv_workerEmit (s : System) (sig : Nat × WorkerSignal)
    (rest : List (Nat × WorkerSignal)) (hinv : PipelineInv s) (hrun : s.running = sig :: rest) :
    PipelineInv { s with running := rest, posted := s.posted ++ [sig] } := by
  cases haw : s.model.mAwaitingResults with
  | false =>
    have := (hinv.1 haw).2.1
    rw [hrun] at this
    exact absurd this (by simp)
  | true =>
    rcases hinv.2 haw with ⟨_, hr, _⟩ | ⟨ht, h1, bs, hbs⟩
    · rw [hrun] at hr
      exact absurd hr (by simp)
    · refine ⟨fun h => ?_, fun _ => Or.inr ⟨ht, h1, bs, ?_⟩⟩
      · simp only [haw] at h
        exact absurd h (by decide)
      · rw [hrun] at hbs
        simpa [List.append_assoc] using hbs

theorem onResultsFetched_effect (m : DirModel) (h : m.mAwaitingResults = true) :
    m.onResultsFetched.mAwaitingResults = false ∧ m.onResultsFetched.requests = m.requests := by
  simp [DirModel.onResultsFetched, h]

theorem pipelineInv_deliver (qt : Qt) (s : System) (sig : Nat × WorkerSignal)
    (rest : List (Nat × WorkerSignal)) (hinv : PipelineInv s) (hpost : s.posted = sig :: rest) :
    PipelineInv { s with model := s.model.deliver qt sig.2, posted := rest } := by
  cases haw : s.model.mAwaitingResults with
  | false =>
    have := (hinv.1 haw).2.2
    rw [hpost] at this
    exact absurd this (by simp)
  | true =>
    rcases hinv.2 haw with ⟨_, _, hp⟩ | ⟨ht, h1, bs, hbs⟩
    · rw [hpost] at hp
      exact absurd hp (by simp)
    · rw [hpost] at hbs
      cases bs with
      | nil =>
        simp only [List.map_nil, List.nil_append, List.cons_append, List.cons.injEq,
          List.append_eq_nil] at hbs
        obtain ⟨hsig, hrest, hrun⟩ := hbs
        have he := onResultsFetched_effect s.model haw
        refine ⟨fun _ => ⟨?_, hrun, hrest⟩, fun h => ?_⟩
        · simp only [hsig, DirModel.deliver, he.2]
          exact ht
        · simp only [hsig, DirModel.deliver, he.1] at h
          exact absurd h (by decide)
      | cons b bs =>
        simp only [List.map_cons, List.cons_append, List.cons.injEq] at hbs
        obtain ⟨hsig, hrest⟩ := hbs
        have hcfg := onItemsAdded_config qt b s.model
        refine ⟨fun h => ?_, fun _ => Or.inr ⟨?_, h1, bs, hrest⟩⟩
        · simp only [hsig, DirModel.deliver, hcfg.2.2.2.2.1, haw] at h
          exact absurd h (by decide)
        · simp only [hsig, DirModel.deliver, hcfg.2.2.2.2.2.2]
          exact ht

theorem pipelineInv_step (qt : Qt) (s : System) (st : Step) (hinv : PipelineInv s) :
    PipelineInv (s.step qt st) := by
  cases st with
  | call c => exact pipelineInv_call s c hinv
  | workerStart it =>
    simp only [System.step]
    split
    · next hw => exact pipelineInv_workerStart s it _ hinv hw
    · exact hinv
  | workerEmit =>
    simp only [System.step]
    split
    · exact hinv
    · next sig rest hrun => exact pipelineInv_workerEmit s sig rest hinv hrun
  | deliver =>
    simp only [System.step]
    split
    · exact hinv
    · next sig rest hpost => exact pipelineInv_deliver qt s sig rest hinv hpost

theorem pipelineInv_exec (qt : Qt) (steps : List Step) : PipelineInv (System.exec qt steps) := by
  have key : ∀ (l : List Step) (s : System), PipelineInv s →
      PipelineInv (l.foldl (System.step qt) s) := by
    intro l
    induction l with
    | nil => intro s h; exact h
    | cons st l ih => intro s h; exact ih _ (pipelineInv_step qt s st h)
  exact key steps System.start pipelineInv_start

/-! ## Lemmas on the system under the mutator discipline -/

theorem runLoop_items (sh : Bool) : ∀ (it acc : List QFileInfo),
    ∀ sig ∈ DirListWorker.runLoop sh it acc, ∀ fi ∈ batchItems sig,
      fi ∈ acc ∨ notSkipped sh fi = true := by
  intro it
  induction it with
  | nil =>
    intro acc sig hsig fi hfi
    simp only [DirListWorker.runLoop, List.mem_cons, List.mem_singleton, List.mem_nil_iff,
      or_false] at hsig
    rcases hsig with rfl | rfl
    · exact Or.inl hfi
    · simp [batchItems] at hfi
  | cons fi0 it ih =>
    intro acc sig hsig fi hfi
    cases hns : notSkipped sh fi0 with
    | false =>
      rw [runLoop_skip sh fi0 it acc hns] at hsig
      exact ih acc sig hsig fi hfi
    | true =>
      by_cases hfull : 50 ≤ acc.length + 1
      · rw [runLoop_flush sh fi0 it acc hns hfull, List.mem_cons] at hsig
        rcases hsig with rfl | hsig
        · simp only [batchItems, List.mem_append, List.mem_singleton] at hfi
          rcases hfi with h | rfl
          · exact Or.inl h
          · exact Or.inr hns
        · rcases ih [] sig hsig fi hfi with h | h
          · simp at h
          · exact Or.inr h
      · rw [runLoop_keep sh fi0 it acc hns (by omega)] at hsig
        rcases ih (acc ++ [fi0]) sig hsig fi hfi with h | h
        · rw [List.mem_append, List.mem_singleton] at h
          rcases h with h | rfl
          · exact Or.inl h
          · exact Or.inr hns
        · exact Or.inr h

theorem setPath_of_awaiting (m : DirModel) (pathName : String)
    (h : m.mAwaitingResults = true) : m.setPath pathName = m := by
  unfold DirModel.setPath
  split_ifs <;> rfl

theorem setPath_request (m : DirModel) (pathName : String) :
    (m.setPath pathName).mShowHiddenFiles = m.mShowHiddenFiles ∧
    ((m.setPath pathName).requests = m.requests ∨
      (m.setPath pathName).requests =
        m.requests ++ [DirListWorker.mk pathName m.mShowHiddenFiles]) := by
  unfold DirModel.setPath
  split_ifs
  · exact ⟨rfl, Or.inl rfl⟩
  · exact ⟨rfl, Or.inl rfl⟩
  · exact ⟨rfl, Or.inr rfl⟩

theorem call_request (m : DirModel) (c : Call) :
    (m.call c).requests = m.requests ∨
    ∃ p, (m.call c).requests = m.requests ++ [DirListWorker.mk p (m.call c).mShowHiddenFiles] := by
  cases c with
  | setPath pathName =>
    obtain ⟨h1, h2⟩ := setPath_request m pathName
    rcases h2 with h | h
    · exact Or.inl h
    · exact Or.inr ⟨pathName, by simp only [DirModel.call, h, h1]⟩
  | setShowDirectories b =>
    obtain ⟨h1, h2⟩ := setPath_request { m with mShowDirectories := b } m.mCurrentDir
    simp only [DirModel.call, DirModel.setShowDirectories, DirModel.refresh]
    rcases h2 with h | h
    · exact Or.inl h
    · exact Or.inr ⟨m.mCurrentDir, by rw [h, h1]⟩
  | setShowHiddenFiles b =>
    obtain ⟨h1, h2⟩ := setPath_request { m with mShowHiddenFiles := b } m.mCurrentDir
    simp only [DirModel.call, DirModel.setShowHiddenFiles, DirModel.refresh]
    split_ifs
    · rcases h2 with h | h
      · exact Or.inl h
      · exact Or.inr ⟨m.mCurrentDir, by rw [h, h1]⟩
    · exact Or.inl rfl
  | setFilterMode mode =>
    obtain ⟨h1, h2⟩ := setPath_request { m with mFilterMode := mode } m.mCurrentDir
    simp only [DirModel.call, DirModel.setFilterMode, DirModel.refresh]
    split_ifs
    · exact Or.inl rfl
    · rcases h2 with h | h
      · exact Or.inl h
      · exact Or.inr ⟨m.mCurrentDir, by rw [h, h1]⟩
  | setNameFilters l =>
    obtain ⟨h1, h2⟩ := setPath_request { m with mNameFilters := l } m.mCurrentDir
    simp only [DirModel.call, DirModel.setNameFilters, DirModel.refresh]
    rcases h2 with h | h
    · exact Or.inl h
    · exact Or.inr ⟨m.mCurrentDir, by rw [h, h1]⟩

theorem systemInv_start (qt : Qt) : SystemInv qt System.start := by
  refine ⟨pipelineInv_start, configInv_construct qt, ?_, ?_⟩
  · intro sig hsig
    simp [System.start] at hsig
  · intro w hw
    simp [System.start, DirModel.construct] at hw

theorem systemInv_call (qt : Qt) (s : System) (c : Call) (hinv : SystemInv qt s)
    (hal : stepAllowed s (Step.call c) = true) :
    SystemInv qt { s with model := s.model.call c } := by
  obtain ⟨hp, hc, hh⟩ := hinv
  cases haw : s.model.mAwaitingResults with
  | true =>
    cases c with
    | setPath pathName =>
      have he : s.model.call (Call.setPath pathName) = s.model :=
        setPath_of_awaiting s.model pathName haw
      rw [he]
      exact ⟨hp, hc, hh⟩
    | setShowDirectories b => simp [stepAllowed, haw] at hal
    | setShowHiddenFiles b => simp [stepAllowed, haw] at hal
    | setFilterMode mode => simp [stepAllowed, haw] at hal
    | setNameFilters l => simp [stepAllowed, haw] at hal
  | false =>
    obtain ⟨ht, hr, hpo⟩ := hp.1 haw
    refine ⟨pipelineInv_call s c hp, configInv_call_idle qt s.model c hc haw, ?_, ?_⟩
    · intro sig hsig
      simp only [hr, hpo, List.append_nil, List.not_mem_nil] at hsig
    · intro w hw
      simp only at hw
      rcases call_request s.model c with h | ⟨p, h⟩
      · rw [h, ht, List.getElem?_eq_none (Nat.le_refl _)] at hw
        exact absurd hw (by simp)
      · rw [h, ht] at hw
        simp only [List.getElem?_concat_length, Option.some.injEq] at hw
        rw [← hw]

theorem systemInv_workerStart (qt : Qt) (s : System) (it : List QFileInfo) (w : DirListWorker)
    (hinv : SystemInv qt s) (hw : s.model.requests[s.taken]? = some w) :
    SystemInv qt { s with
      taken := s.taken + 1
      running := (w.run it).map (fun sig => (s.taken, sig)) } := by
  obtain ⟨hp, hc, hh⟩ := hinv
  have hp2 := pipelineInv_workerStart s it w hp hw
  have hlt : s.taken < s.model.requests.length := by
    rcases Nat.lt_or_ge s.taken s.model.requests.length with h | h
    · exact h
    · rw [List.getElem?_eq_none h] at hw
      exact absurd hw (by simp)
  have hposted : s.posted = [] := by
    cases haw : s.model.mAwaitingResults with
    | false =>
      have := (hp.1 haw).1
      omega
    | true =>
      rcases hp.2 haw with ⟨_, _, h⟩ | ⟨ht, _, _⟩
      · exact h
      · omega
  refine ⟨hp2, hc, ?_, ?_⟩
  · intro sig hsig fi hfi
    simp only [hposted, List.nil_append, List.mem_map] at hsig
    obtain ⟨ws, hws, rfl⟩ := hsig
    have hitems := runLoop_items w.mShowHidden it [] ws hws fi hfi
    rcases hitems with h | h
    · simp at h
    · have hsnap := hh.2 w hw
      simp only [notSkipped, hsnap] at h
      revert h
      cases startsWithDot fi.fileName <;> cases s.model.mShowHiddenFiles <;> simp
  · intro w2 hw2
    have hlen : s.model.requests.length ≤ s.taken + 1 := by
      cases haw : s.model.mAwaitingResults with
      | false =>
        have := (hp.1 haw).1
        omega
      | true =>
        rcases hp.2 haw with ⟨h, _, _⟩ | ⟨h, _, _⟩ <;> omega
    simp only at hw2
    rw [List.getElem?_eq_none hlen] at hw2
    exact absurd hw2 (by simp)

theorem systemInv_workerEmit (qt : Qt) (s : System) (sig : Nat × WorkerSignal)
    (rest : List (Nat × WorkerSignal)) (hinv : SystemInv qt s) (hrun : s.running = sig :: rest) :
    SystemInv qt { s with running := rest, posted := s.posted ++ [sig] } := by
  obtain ⟨hp, hc, hh⟩ := hinv
  refine ⟨pipelineInv_workerEmit s sig rest hp hrun, hc, ?_, hh.2⟩
  intro sg hsg
  apply hh.1 sg
  rw [hrun]
  simpa [List.append_assoc] using hsg

theorem deliver_config (qt : Qt) (m : DirModel) (sig : WorkerSignal) :
    (m.deliver qt sig).mShowHiddenFiles = m.mShowHiddenFiles ∧
    (m.deliver qt sig).requests = m.requests := by
  cases sig with
  | itemsAdded files =>
    have h := onItemsAdded_config qt files m
    exact ⟨h.2.2.2.1, h.2.2.2.2.2.2⟩
  | workerFinished =>
    simp only [DirModel.deliver, DirModel.onResultsFetched]
    split_ifs <;> exact ⟨rfl, rfl⟩

theorem systemInv_deliver (qt : Qt) (s : System) (sig : Nat × WorkerSignal)
    (rest : List (Nat × WorkerSignal)) (hinv : SystemInv qt s) (hpost : s.posted = sig :: rest) :
    SystemInv qt { s with model := s.model.deliver qt sig.2, posted := rest } := by
  obtain ⟨hp, hc, hh⟩ := hinv
  have hdc := deliver_config qt s.model sig.2
  have haw : s.model.mAwaitingResults = true := by
    cases h : s.model.mAwaitingResults with
    | true => rfl
    | false =>
      have := (hp.1 h).2.2
      rw [hpost] at this
      exact absurd this (by simp)
  refine ⟨pipelineInv_deliver qt s sig rest hp hpost, ?_, ?_, ?_⟩
  · cases hs : sig.2 with
    | itemsAdded files =>
      simp only [DirModel.deliver]
      apply configInv_onItemsAdded qt s.model files hc haw
      intro fi hfi
      apply hh.1 sig (by rw [hpost]; simp) fi
      rw [hs]
      exact hfi
    | workerFinished =>
      simp only [DirModel.deliver]
      exact configInv_onResultsFetched qt s.model hc
  · intro sg hsg fi hfi
    simp only [hdc.1]
    apply hh.1 sg _ fi hfi
    rw [hpost]
    simp only [List.cons_append, List.mem_cons]
    exact Or.inr hsg
  · intro w hw
    simp only [hdc.1, hdc.2] at hw ⊢
    exact hh.2 w hw

theorem systemInv_step (qt : Qt) (s : System) (st : Step) (hinv : SystemInv qt s)
    (hal : stepAllowed s st = true) : SystemInv qt (s.step qt st) := by
  cases st with
  | call c => exact systemInv_call qt s c hinv hal
  | workerStart it =>
    simp only [System.step]
    split
    · next hw => exact systemInv_workerStart qt s it _ hinv hw
    · exact hinv
  | workerEmit =>
    simp only [System.step]
    split
    · exact hinv
    · next sig rest hrun => exact systemInv_workerEmit qt s sig rest hinv hrun
  | deliver =>
    simp only [System.step]
    split
    · exact hinv
    · next sig rest hpost => exact systemInv_deliver qt s sig rest hinv hpost

theorem systemInv_foldl (qt : Qt) (steps : List Step) : ∀ (s : System),
    SystemInv qt s → System.allowed qt s steps = true →
    SystemInv qt (steps.foldl (System.step qt) s) := by
  induction steps with
  | nil => intro s hinv _; exact hinv
  | cons st rest ih =>
    intro s hinv hal
    simp only [System.allowed, Bool.and_eq_true] at hal
    exact ih (s.step qt st) (systemInv_step qt s st hinv hal.1) hal.2

/-! ## Checked properties -/

/-- C1: when the name comparison is a strict weak order and `entries` is sorted
under the ordering rule of `fileCompare`, the list left by `onItemsAdded` is
sorted under that rule again, for every batch. -/
theorem onItemsAdded_sorted (qt : Qt) (hswo : StrictWeakOrder (nameLess qt))
    (newFiles : List QFileInfo) (m : DirModel) (hs : Sorted qt m.mDirectoryContents) :
    Sorted qt (m.onItemsAdded qt newFiles).mDirectoryContents :=
  foldl_addItem_sorted qt hswo newFiles m hs

/-- Scenario 1 of the specification, as an instance of C1: ingesting `b.txt`,
`a.txt` and the directory `z` into the empty view leaves the sorted list `z`,
`a.txt`, `b.txt`. -/
theorem onItemsAdded_sorted_witness :
    Sorted sampleQt
      (DirModel.construct.onItemsAdded sampleQt
        [file "b.txt", file "a.txt", dir "z"]).mDirectoryContents ∧
    (DirModel.construct.onItemsAdded sampleQt
        [file "b.txt", file "a.txt", dir "z"]).mDirectoryContents =
      [dir "z", file "a.txt", file "b.txt"] :=
  ⟨onItemsAdded_sorted sampleQt sampleQt_strictWeakOrder
      [file "b.txt", file "a.txt", dir "z"] DirModel.construct List.Pairwise.nil,
    by decide⟩

/-- C7: the admit decision of the pattern loop of `onItemsAdded` is the
FilterPredicate: in Exclusive mode a name is admitted exactly when it matches
every pattern, in Inclusive mode exactly when it matches at least one pattern;
this includes the empty pattern list. -/
theorem doAdd_iff_filterPredicate (qt : Qt) (patterns : List String) (name : String) :
    (doAdd qt FilterMode.Exclusive patterns name = true ↔
      ∀ p ∈ patterns, qt.hasMatch p name = true) ∧
    (doAdd qt FilterMode.Inclusive patterns name = true ↔
      ∃ p ∈ patterns, qt.hasMatch p name = true) ∧
    (∀ mode, doAdd qt mode patterns name = filterPredicateAdmits qt mode patterns name) := by
  refine ⟨?_, ?_, fun mode => doAdd_eq_filterPredicateAdmits qt mode patterns name⟩
  · rw [doAdd_eq_filterPredicateAdmits]
    simp [filterPredicateAdmits]
  · rw [doAdd_eq_filterPredicateAdmits]
    simp [filterPredicateAdmits]

/-- C3: with `n` entries not skipped, `DirListWorker::run` emits `n / 50`
batches of exactly 50 entries, then one final batch of `n % 50` entries, then
the completion signal, and nothing else. -/
theorem run_batch_sizes (w : DirListWorker) (it : List QFileInfo) :
    (w.run it).map batchSize =
      List.replicate ((it.filter (notSkipped w.mShowHidden)).length / 50) (some 50) ++
        [some ((it.filter (notSkipped w.mShowHidden)).length % 50), none] := by
  have h := runLoop_sizes w.mShowHidden it [] (by simp)
  simpa [DirListWorker.run] using h

set_option maxRecDepth 100000 in
/-- Scenario 2 of the specification, as an instance of C3: 120 plain files
`f001` to `f120` give batches of 50, 50 and 20 entries, then the completion
signal. -/
theorem run_batch_sizes_witness :
    ((DirListWorker.mk "/d" false).run ((List.range' 1 120).map numbered)).map batchSize =
      [some 50, some 50, some 20, none] :=
  (run_batch_sizes (DirListWorker.mk "/d" false) ((List.range' 1 120).map numbered)).trans
    (by decide)

/-- C2: starting from an empty view whose configuration the worker was started
with, ingesting in order every signal `DirListWorker::run` emits for the
enumeration `E` leaves in `entries` a permutation of exactly the elements of
`E` that satisfy the configuration (hidden rule, directory rule, and the
FilterPredicate). -/
theorem scan_entries_perm (qt : Qt) (m : DirModel) (w : DirListWorker) (E : List QFileInfo)
    (hempty : m.mDirectoryContents = []) (hcfg : w.mShowHidden = m.mShowHiddenFiles) :
    List.Perm ((w.run E).foldl (DirModel.deliver qt) m).mDirectoryContents
      (E.filter (satisfiesConfig qt m)) := by
  have h := runLoop_perm qt w.mShowHidden E [] m
  rw [hempty] at h
  simp only [List.nil_append, List.filter_filter] at h
  have hp : (fun a => admitted qt m a && notSkipped w.mShowHidden a) = satisfiesConfig qt m := by
    funext fi
    simp only [admitted, notSkipped, satisfiesConfig, doAdd_eq_filterPredicateAdmits, hcfg]
    cases startsWithDot fi.fileName <;> cases m.mShowHiddenFiles <;> cases fi.isDir <;>
      cases m.mShowDirectories <;> simp
  rw [hp] at h
  exact h


/-- Scenario 4 of the specification, as an instance of C2: with hidden files
shown, a scan of a directory holding `.cfg` and `visible.txt` leaves both in
`entries`. -/
theorem scan_entries_perm_witness :
    List.Perm
      (((DirListWorker.mk "/d" true).run [file "visible.txt", file ".cfg"]).foldl
        (DirModel.deliver sampleQt)
        (DirModel.construct.setShowHiddenFiles true)).mDirectoryContents
      ([file "visible.txt", file ".cfg"].filter
        (satisfiesConfig sampleQt (DirModel.construct.setShowHiddenFiles true))) ∧
    (((DirListWorker.mk "/d" true).run [file "visible.txt", file ".cfg"]).foldl
        (DirModel.deliver sampleQt)
        (DirModel.construct.setShowHiddenFiles true)).mDirectoryContents =
      [file ".cfg", file "visible.txt"] :=
  ⟨scan_entries_perm sampleQt (DirModel.construct.setShowHiddenFiles true)
      (DirListWorker.mk "/d" true) [file "visible.txt", file ".cfg"] (by decide) (by decide),
    by decide⟩

/-- C4: while a scan is awaited, `setPath` changes nothing: `entries`, the
current path, the awaiting flag and the configuration are as before, no signal
(hence no reset) is emitted and no request is started. -/
theorem setPath_rejected_while_awaiting (m : DirModel) (pathName : String)
    (h : m.mAwaitingResults = true) : m.setPath pathName = m := by
  unfold DirModel.setPath
  split_ifs
  · rfl
  · rfl

/-- Scenario 3 of the specification, as an instance of C4: `setPath("/a")`
followed by `setPath("/b")` before completion leaves the current path `/a`. -/
theorem setPath_rejected_while_awaiting_witness :
    (DirModel.construct.setPath "/a").mAwaitingResults = true ∧
    (DirModel.construct.setPath "/a").setPath "/b" = DirModel.construct.setPath "/a" ∧
    ((DirModel.construct.setPath "/a").setPath "/b").mCurrentDir = "/a" :=
  ⟨by decide,
    setPath_rejected_while_awaiting (DirModel.construct.setPath "/a") "/b" (by decide),
    by decide⟩

/-- C5 as stated fails: after `setPath("/a")` and one ingested batch, a
rejected `setPath("/b")` returns with the old content still in `entries`. -/
theorem setPath_rejected_keeps_entries :
    (((DirModel.construct.setPath "/a").onItemsAdded sampleQt [file "a.txt"]).setPath
      "/b").mDirectoryContents = [file "a.txt"] ∧
    (((DirModel.construct.setPath "/a").onItemsAdded sampleQt [file "a.txt"]).setPath
      "/b").mDirectoryContents ≠ [] := by
  decide

/-- C5, amended: for a non-empty path, an accepted `setPath` (no scan awaited)
returns with `entries` empty, the awaiting flag set and a scan of the path
requested; a rejected `setPath` (a scan awaited) returns with `entries`
unchanged. -/
theorem setPath_entries (m : DirModel) (pathName : String) (hne : pathName.isEmpty = false) :
    (m.mAwaitingResults = false →
      (m.setPath pathName).mDirectoryContents = [] ∧
      (m.setPath pathName).mAwaitingResults = true ∧
      (m.setPath pathName).requests =
        m.requests ++ [DirListWorker.mk pathName m.mShowHiddenFiles]) ∧
    (m.mAwaitingResults = true →
      (m.setPath pathName).mDirectoryContents = m.mDirectoryContents) := by
  constructor
  · intro h
    simp [DirModel.setPath, hne, h]
  · intro h
    simp [DirModel.setPath, hne, h]

/-- An instance of the amended C5: an accepted `setPath("/b")` on an idle view
holding `a.txt` empties `entries`. -/
theorem setPath_entries_witness :
    "/b".isEmpty = false ∧
    (idleView.setPath "/b").mDirectoryContents = [] :=
  ⟨by decide, ((setPath_entries idleView "/b" (by decide)).1 (by decide)).1⟩

/-- C8 fails on the code for two of the four mutators: on an idle view at `/a`
holding `a.txt`, `setShowDirectories(true)` and `setNameFilters(["*"])`, each
called with the value the field already holds, empty `entries`, set the
awaiting flag and request a new scan, while `setShowHiddenFiles(false)` and
`setFilterMode(Exclusive)`, called the same way, leave the view as it is. -/
theorem mutator_same_value_rescans :
    idleView.mAwaitingResults = false ∧ idleView.mCurrentDir = "/a" ∧
    idleView.mDirectoryContents = [file "a.txt"] ∧
    idleView.mShowDirectories = true ∧ idleView.mNameFilters = ["*"] ∧
    (idleView.setShowDirectories true).mDirectoryContents = [] ∧
    (idleView.setShowDirectories true).mAwaitingResults = true ∧
    (idleView.setShowDirectories true).requests.length = idleView.requests.length + 1 ∧
    (idleView.setNameFilters ["*"]).mDirectoryContents = [] ∧
    (idleView.setNameFilters ["*"]).mAwaitingResults = true ∧
    (idleView.setNameFilters ["*"]).requests.length = idleView.requests.length + 1 ∧
    idleView.setShowHiddenFiles false = idleView ∧
    idleView.setFilterMode FilterMode.Exclusive = idleView := by
  decide

/-- C10 as stated fails: two entries named `a.txt` tie under the ordering
rule; ingested in the order first, second, they stand in `entries` in the
order second, first. -/
theorem tied_entry_inserted_first :
    tied sampleQt (file "a.txt") otherFile = true ∧
    ((DirModel.construct.onItemsAdded sampleQt [file "a.txt"]).onItemsAdded sampleQt
      [otherFile]).mDirectoryContents = [otherFile, file "a.txt"] := by
  decide

/-- C10, amended: when the name comparison is a strict weak order, `entries`
is sorted and `e` is admitted, `onItemsAdded` inserts `e` between the entries
that compare less than `e` and all the others: every entry that ties with `e`
stands after `e`, so tied entries appear in reverse order of ingestion. -/
theorem onItemsAdded_inserts_before_ties (qt : Qt) (hswo : StrictWeakOrder (nameLess qt))
    (m : DirModel) (e : QFileInfo) (hs : Sorted qt m.mDirectoryContents)
    (hadm : admitted qt m e = true) :
    ∃ pre post, m.mDirectoryContents = pre ++ post ∧
      (m.onItemsAdded qt [e]).mDirectoryContents = pre ++ e :: post ∧
      (∀ x ∈ pre, fileCompare qt x e = true ∧ tied qt x e = false) ∧
      (∀ x ∈ post, fileCompare qt x e = false) := by
  have hspec := lower_bound_spec (fileCompare qt) m.mDirectoryContents e
    (partitioned_of_pairwise (fileCompare qt) (fileCompare_strictWeakOrder qt hswo)
      m.mDirectoryContents e hs)
  refine ⟨m.mDirectoryContents.take (lower_bound (fileCompare qt) m.mDirectoryContents e),
    m.mDirectoryContents.drop (lower_bound (fileCompare qt) m.mDirectoryContents e),
    (List.take_append_drop _ _).symm, ?_, ?_, hspec.2.2⟩
  · simp only [DirModel.onItemsAdded, List.foldl_cons, List.foldl_nil]
    rw [addItem_contents, if_pos hadm]
  · intro x hx
    have hlt := hspec.2.1 x hx
    exact ⟨hlt, by simp [tied, hlt]⟩

/-- An instance of the amended C10: `a.txt` ingested into a view that holds a
tied `a.txt` and a smaller directory `z` lands after `z` and before the tied
entry. -/
theorem onItemsAdded_inserts_before_ties_witness :
    ∃ pre post,
      (DirModel.construct.onItemsAdded sampleQt [dir "z", file "a.txt"]).mDirectoryContents =
        pre ++ post ∧
      ((DirModel.construct.onItemsAdded sampleQt [dir "z", file "a.txt"]).onItemsAdded sampleQt
        [otherFile]).mDirectoryContents = pre ++ otherFile :: post ∧
      (∀ x ∈ pre, fileCompare sampleQt x otherFile = true ∧ tied sampleQt x otherFile = false) ∧
      (∀ x ∈ post, fileCompare sampleQt x otherFile = false) :=
  onItemsAdded_inserts_before_ties sampleQt sampleQt_strictWeakOrder
    (DirModel.construct.onItemsAdded sampleQt [dir "z", file "a.txt"]) otherFile
    (foldl_addItem_sorted sampleQt sampleQt_strictWeakOrder [dir "z", file "a.txt"]
      DirModel.construct List.Pairwise.nil)
    (by decide)

/-- C6 as stated fails: after `setPath("/d")` and the ingestion of the batch
the worker emits for a directory holding the subdirectory `z`,
`setShowDirectories(false)` is called while the scan is still awaited; its
rescan is rejected, and the directory `z` stays in `entries` while
`showDirectories` is false. The same happens in the system with its worker:
request, start, emission and delivery of the batch, then the mutator. -/
theorem mutator_during_scan_breaks_config :
    (DirListWorker.mk "/d" false).run [dir "z"] =
      [WorkerSignal.itemsAdded [dir "z"], WorkerSignal.workerFinished] ∧
    (DirModel.construct.applyAll sampleQt
      [ViewOp.call (Call.setPath "/d"), ViewOp.onItemsAdded [dir "z"],
        ViewOp.call (Call.setShowDirectories false)]).mDirectoryContents = [dir "z"] ∧
    (DirModel.construct.applyAll sampleQt
      [ViewOp.call (Call.setPath "/d"), ViewOp.onItemsAdded [dir "z"],
        ViewOp.call (Call.setShowDirectories false)]).mShowDirectories = false ∧
    satisfiesConfig sampleQt
      (DirModel.construct.applyAll sampleQt
        [ViewOp.call (Call.setPath "/d"), ViewOp.onItemsAdded [dir "z"],
          ViewOp.call (Call.setShowDirectories false)])
      (dir "z") = false ∧
    (System.exec sampleQt
      [Step.call (Call.setPath "/d"), Step.workerStart [dir "z"], Step.workerEmit,
        Step.deliver, Step.call (Call.setShowDirectories false)]).model.mDirectoryContents =
      [dir "z"] ∧
    satisfiesConfig sampleQt
      (System.exec sampleQt
        [Step.call (Call.setPath "/d"), Step.workerStart [dir "z"], Step.workerEmit,
          Step.deliver, Step.call (Call.setShowDirectories false)]).model
      (dir "z") = false := by
  decide

/-- C6, amended: in every state the system reaches from the freshly
constructed view by client calls, worker starts, worker emissions and in-order
deliveries, with each configuration mutator called only while no scan is
awaited, every element of `entries` satisfies the configuration current in
that state: no directory while `showDirectories` is false, no dot-named entry
while `showHiddenFiles` is false, and no entry the FilterPredicate rejects. -/
theorem system_entries_satisfy_config (qt : Qt) (steps : List Step)
    (h : System.allowed qt System.start steps = true) :
    ∀ fi ∈ (System.exec qt steps).model.mDirectoryContents,
      satisfiesConfig qt (System.exec qt steps).model fi = true :=
  (systemInv_foldl qt steps System.start (systemInv_start qt) h).2.1.1

/-- An instance of the amended C6: a scan of a directory holding `z`, `.h` and
`a.txt`, then `setShowDirectories(false)` on the idle view and the rescan it
triggers, which leaves `a.txt` alone in `entries`. -/
theorem system_entries_satisfy_config_witness :
    System.allowed sampleQt System.start
      [Step.call (Call.setPath "/d"), Step.workerStart [dir "z", file ".h", file "a.txt"],
        Step.workerEmit, Step.deliver, Step.workerEmit, Step.deliver,
        Step.call (Call.setShowDirectories false),
        Step.workerStart [dir "z", file ".h", file "a.txt"],
        Step.workerEmit, Step.deliver, Step.workerEmit, Step.deliver] = true ∧
    (System.exec sampleQt
      [Step.call (Call.setPath "/d"), Step.workerStart [dir "z", file ".h", file "a.txt"],
        Step.workerEmit, Step.deliver, Step.workerEmit, Step.deliver,
        Step.call (Call.setShowDirectories false),
        Step.workerStart [dir "z", file ".h", file "a.txt"],
        Step.workerEmit, Step.deliver, Step.workerEmit,
        Step.deliver]).model.mDirectoryContents = [file "a.txt"] ∧
    ∀ fi ∈ (System.exec sampleQt
        [Step.call (Call.setPath "/d"), Step.workerStart [dir "z", file ".h", file "a.txt"],
          Step.workerEmit, Step.deliver, Step.workerEmit, Step.deliver,
          Step.call (Call.setShowDirectories false),
          Step.workerStart [dir "z", file ".h", file "a.txt"],
          Step.workerEmit, Step.deliver, Step.workerEmit,
          Step.deliver]).model.mDirectoryContents,
      satisfiesConfig sampleQt
        (System.exec sampleQt
          [Step.call (Call.setPath "/d"), Step.workerStart [dir "z", file ".h", file "a.txt"],
            Step.workerEmit, Step.deliver, Step.workerEmit, Step.deliver,
            Step.call (Call.setShowDirectories false),
            Step.workerStart [dir "z", file ".h", file "a.txt"],
            Step.workerEmit, Step.deliver, Step.workerEmit, Step.deliver]).model fi = true :=
  ⟨by decide, by decide,
    system_entries_satisfy_config sampleQt
      [Step.call (Call.setPath "/d"), Step.workerStart [dir "z", file ".h", file "a.txt"],
        Step.workerEmit, Step.deliver, Step.workerEmit, Step.deliver,
        Step.call (Call.setShowDirectories false),
        Step.workerStart [dir "z", file ".h", file "a.txt"],
        Step.workerEmit, Step.deliver, Step.workerEmit, Step.deliver] (by decide)⟩

/-- C9: in every state the system reaches from the start, at most one scan is
in flight. Every signal posted or still to be emitted carries the index of the
latest request; at most one request is queued, and while it is nothing is
posted or running; `awaitingResults` is false only when every request has been
taken and nothing is running or posted; and a client call adds a request only
when `awaitingResults` is false. -/
theorem one_scan_in_flight (qt : Qt) (steps : List Step) :
    (∀ sig ∈ (System.exec qt steps).posted ++ (System.exec qt steps).running,
      sig.1 + 1 = (System.exec qt steps).model.requests.length) ∧
    ((System.exec qt steps).taken ≤ (System.exec qt steps).model.requests.length ∧
      (System.exec qt steps).model.requests.length ≤ (System.exec qt steps).taken + 1 ∧
      ((System.exec qt steps).taken < (System.exec qt steps).model.requests.length →
        (System.exec qt steps).posted ++ (System.exec qt steps).running = [])) ∧
    ((System.exec qt steps).model.mAwaitingResults = false →
      (System.exec qt steps).taken = (System.exec qt steps).model.requests.length ∧
      (System.exec qt steps).running = [] ∧ (System.exec qt steps).posted = []) ∧
    (∀ c : Call, ((System.exec qt steps).model.call c).requests ≠
        (System.exec qt steps).model.requests →
      (System.exec qt steps).model.mAwaitingResults = false) := by
  have hinv := pipelineInv_exec qt steps
  generalize System.exec qt steps = s at hinv
  refine ⟨?_, ?_, hinv.1, ?_⟩
  · intro sig hsig
    cases haw : s.model.mAwaitingResults with
    | false =>
      obtain ⟨_, hr, hp⟩ := hinv.1 haw
      rw [hr, hp] at hsig
      simp at hsig
    | true =>
      rcases hinv.2 haw with ⟨_, hr, hp⟩ | ⟨ht, h1, bs, hbs⟩
      · rw [hr, hp] at hsig
        simp at hsig
      · rw [hbs, List.mem_append, List.mem_map, List.mem_singleton] at hsig
        rcases hsig with ⟨b, _, rfl⟩ | rfl
        · simp only
          omega
        · simp only
          omega
  · cases haw : s.model.mAwaitingResults with
    | false =>
      obtain ⟨ht, hr, hp⟩ := hinv.1 haw
      exact ⟨by omega, by omega, fun _ => by rw [hr, hp]; rfl⟩
    | true =>
      rcases hinv.2 haw with ⟨ht, hr, hp⟩ | ⟨ht, h1, bs, hbs⟩
      · exact ⟨by omega, by omega, fun _ => by rw [hr, hp]; rfl⟩
      · exact ⟨by omega, by omega, fun h => by omega⟩
  · intro c hne
    rcases call_effect s.model c with ⟨_, hr⟩ | ⟨hidle, _, _⟩
    · exact absurd hr hne
    · exact hidle

end FolderListModel
